import Mathlib

/-
Verification of the wallet-side transaction authorization engine
(`src/wallet/keychain.py`): a `Keychain` mapping public keys to private
key material, a per-obligation `sign` operation, and
`signature_for_solution`, which derives signing obligations from a spend
solution, signs each in order, and aggregates the signatures.

The collaborators imported by `keychain.py` (`BLSPrivateKey`,
`BLSSignature.aggregate`, `conditions_for_solution`,
`conditions_by_opcode`, `hash_key_pairs_for_conditions_dict`) are not part
of the provided source; they are modelled from the specification, over a
cyclic group of prime order `q` written additively on `Nat` with explicit
`% q`, which realises the spec's "signature scheme with aggregation":
a commutative, associative group combination with an identity value.
-/

namespace ChiaWallet

/-- Modelled from the spec: the order of the signature group. The spec
describes signatures as elements of a group whose combination is
commutative and associative with an identity value; we realise it as the
additive cyclic group of integers mod the prime `q = 7919`. -/
def q : Nat := 7919

/-- Modelled from the spec (`src/wallet/BLSPrivateKey.py` is not under
`src/`): PrivateKeyMaterial is "a scalar value usable to produce
signatures and to derive a corresponding public key". -/
structure BLSPrivateKey where
  secret : Nat
deriving Repr, DecidableEq

/-- Modelled from the spec: construct private key material from a raw
secret exponent supplied by the external key-management component. -/
def BLSPrivateKey.from_secret_exponent (e : Nat) : BLSPrivateKey :=
  ⟨e⟩

/-- Modelled from the spec: derive the PublicKey ("a group element") from
a scalar: the scalar multiple of the group generator, here `e % q` in the
additive group of order `q`. Scalars differing by a multiple of `q`
genuinely collide, as scalars beyond the group order do in the scheme. -/
def BLSPrivateKey.public_key (k : BLSPrivateKey) : Nat :=
  k.secret % q

/-- Modelled from the spec: "the deterministic signature of
`message_hash` under that key (the signing function itself is assumed
deterministic and pure with respect to its inputs)". In the modelled
scheme the signature is the secret scalar times the hash point. -/
def BLSPrivateKey.sign (k : BLSPrivateKey) (message_hash : Nat) : Nat :=
  ((k.secret % q) * (message_hash % q)) % q

/-- Modelled from the spec: the Aggregate Signature Builder "returns the
scheme's group-combination of all inputs; returns the scheme's identity
value when the input is empty". -/
def BLSSignature.aggregate (signatures : List Nat) : Nat :=
  signatures.sum % q

/-- The identity AggregateSignature of the modelled scheme. -/
def identityAggregate : Nat := 0

/-- `Keychain` is a `dict` in the source: a finite mapping from PublicKey
to PrivateKeyMaterial. We embed it as an association list carrying the
dict's entries in insertion order. -/
abbrev Keychain := List (Nat × BLSPrivateKey)

/-- Python `dict.get`: the value stored under key `k`, or `none`. -/
def dictGet : Keychain → Nat → Option BLSPrivateKey
  | [], _ => none
  | p :: ps, k => if p.1 = k then some p.2 else dictGet ps k

/-- Whether the dict holds an entry under key `k`. -/
def dictContains : Keychain → Nat → Bool
  | [], _ => false
  | p :: ps, k => if p.1 = k then true else dictContains ps k

/-- Overwrite the value stored under an existing key `k`, keeping the
entry at its original position (CPython `dict` update semantics). -/
def dictUpdate : Keychain → Nat → BLSPrivateKey → Keychain
  | [], _, _ => []
  | p :: ps, k, v => (if p.1 = k then (k, v) else p) :: dictUpdate ps k v

/-- Python `self[k] = v` on a dict: update in place if the key exists,
else append a fresh entry at the end. -/
def dictInsert (kc : Keychain) (k : Nat) (v : BLSPrivateKey) : Keychain :=
  if dictContains kc k then dictUpdate kc k v else kc ++ [(k, v)]

/-- `Keychain.add_secret_exponents` (keychain.py lines 15-18): for each
secret exponent in order, build the private key and store it under its
derived public key. -/
def Keychain.add_secret_exponents (kc : Keychain) (secret_exponents : List Nat) : Keychain :=
  secret_exponents.foldl
    (fun acc e =>
      let bls_private_key := BLSPrivateKey.from_secret_exponent e
      dictInsert acc bls_private_key.public_key bls_private_key)
    kc

/-- The error kinds of the engine (spec section 7). The source raises
`ValueError("unknown pubkey %s" % ...)` for an unknown key; the spec
names it `UnknownKeyError` carrying the missing key. `conditionParse` is
the spec's `ConditionParseError`. -/
inductive KeychainError where
  | unknownKey (public_key : Nat)
  | conditionParse
deriving Repr, DecidableEq

/-- An `aggsig_pair`: a signing obligation (PublicKey, MessageHash). -/
structure AggsigPair where
  public_key : Nat
  message_hash : Nat
deriving Repr, DecidableEq

/-- `Keychain.sign` (keychain.py lines 20-24): look up the private key
for the obligation's public key; absent means the unknown-pubkey error,
present means signing the message hash under the stored key. -/
def Keychain.sign (kc : Keychain) (aggsig_pair : AggsigPair) :
    Except KeychainError Nat :=
  match dictGet kc aggsig_pair.public_key with
  | none => .error (.unknownKey aggsig_pair.public_key)
  | some bls_private_key => .ok (bls_private_key.sign aggsig_pair.message_hash)

/-- `Keychain.sign` with the keychain state threaded explicitly: the body
performs only a lookup, so the outgoing state is the incoming one in
every branch. Used to state frame (state-preservation) claims. -/
def Keychain.sign_st (kc : Keychain) (aggsig_pair : AggsigPair) :
    Except KeychainError Nat × Keychain :=
  match dictGet kc aggsig_pair.public_key with
  | none => (.error (.unknownKey aggsig_pair.public_key), kc)
  | some bls_private_key => (.ok (bls_private_key.sign aggsig_pair.message_hash), kc)

/-- A condition as declared by a solution's output: an opcode together
with the public key and message arguments relevant to the signing
opcodes. -/
structure Condition where
  opcode : Nat
  public_key : Nat
  message : Nat
deriving Repr, DecidableEq

/-- Opcode of the condition class requiring a signature over a
caller-supplied message verbatim. -/
def AGG_SIG : Nat := 49

/-- Opcode of the condition class requiring a signature over a message
bound to coin-specific context. -/
def AGG_SIG_ME : Nat := 50

/-- Modelled from the spec: a spend solution either decodes into a
well-formed condition list or is malformed. -/
inductive Solution where
  | wellFormed (conds : List Condition)
  | malformed
deriving Repr, DecidableEq

/-- Modelled from the spec (`src/util/condition_tools.py` is not under
`src/`): `conditions_for_solution` decodes the solution's output into a
condition list, failing with `ConditionParseError` when it is
malformed. -/
def conditions_for_solution : Solution → Except KeychainError (List Condition)
  | .wellFormed conds => .ok conds
  | .malformed => .error .conditionParse

/-- Modelled from the spec: `conditions_by_opcode` groups the parsed
conditions by opcode, preserving per-opcode order as emitted. The dict is
embedded as the lookup function from an opcode to its condition list. -/
def conditions_by_opcode (conds : List Condition) : Nat → List Condition :=
  fun op => conds.filter (fun c => c.opcode = op)

/-- Modelled from the spec: the deterministic hash of a message, as a
group scalar. -/
def hash_of_message (m : Nat) : Nat :=
  (m * 2654435761 + 104729) % 2 ^ 32

/-- Modelled from the spec: the coin-specific context mixed into the
message of an `AGG_SIG_ME` obligation. -/
def coin_context : Nat := 123456789

/-- Modelled from the spec (`src/util/condition_tools.py` is not under
`src/`): `hash_key_pairs_for_conditions_dict` produces one SignObligation
per qualifying condition of each signature-requiring opcode class, in the
order the conditions were parsed; the two classes differ only in how the
MessageHash is computed. -/
def hash_key_pairs_for_conditions_dict (conditions_dict : Nat → List Condition) :
    List AggsigPair :=
  (conditions_dict AGG_SIG).map
      (fun c => ⟨c.public_key, hash_of_message c.message⟩)
    ++ (conditions_dict AGG_SIG_ME).map
      (fun c => ⟨c.public_key, hash_of_message (c.message + coin_context)⟩)

/-- The obligation list a solution's conditions give rise to. -/
def derived_pairs (conds : List Condition) : List AggsigPair :=
  hash_key_pairs_for_conditions_dict (conditions_by_opcode conds)

/-- The signing loop of `signature_for_solution` (keychain.py lines
27-31): sign each obligation in order, aborting with the first failing
call's error, collecting the signatures in order otherwise. -/
def Keychain.signList (kc : Keychain) : List AggsigPair → Except KeychainError (List Nat)
  | [] => .ok []
  | p :: ps =>
    match kc.sign p with
    | .error e => .error e
    | .ok s =>
      match kc.signList ps with
      | .error e => .error e
      | .ok ss => .ok (s :: ss)

/-- The spec's `sign_obligations`: the signing loop followed by
aggregation, as inlined in `signature_for_solution`. -/
def Keychain.sign_obligations (kc : Keychain) (pairs : List AggsigPair) :
    Except KeychainError Nat :=
  match kc.signList pairs with
  | .error e => .error e
  | .ok sigs => .ok (BLSSignature.aggregate sigs)

/-- `Keychain.signature_for_solution` (keychain.py lines 26-32): parse
the solution into conditions, derive the obligation list, sign each
obligation in order, and aggregate the collected signatures. -/
def Keychain.signature_for_solution (kc : Keychain) (solution : Solution) :
    Except KeychainError Nat :=
  match conditions_for_solution solution with
  | .error e => .error e
  | .ok conds => kc.sign_obligations (derived_pairs conds)

/-- The signing loop with the keychain state threaded explicitly through
every iteration, for frame claims. -/
def Keychain.signList_st (kc : Keychain) :
    List AggsigPair → Except KeychainError (List Nat) × Keychain
  | [] => (.ok [], kc)
  | p :: ps =>
    match kc.sign_st p with
    | (.error e, kc1) => (.error e, kc1)
    | (.ok s, kc1) =>
      match kc1.signList_st ps with
      | (.error e, kc2) => (.error e, kc2)
      | (.ok ss, kc2) => (.ok (s :: ss), kc2)

/-- `signature_for_solution` with the keychain state threaded
explicitly, for frame claims. -/
def Keychain.signature_for_solution_st (kc : Keychain) (solution : Solution) :
    Except KeychainError Nat × Keychain :=
  match conditions_for_solution solution with
  | .error e => (.error e, kc)
  | .ok conds =>
    match kc.signList_st (derived_pairs conds) with
    | (.error e, kc1) => (.error e, kc1)
    | (.ok sigs, kc1) => (.ok (BLSSignature.aggregate sigs), kc1)

/-- The signing loop instrumented with the trace of obligations on which
`sign` was actually called, for the claim that a parse failure precedes
any signing attempt. -/
def Keychain.signList_tr (kc : Keychain) :
    List AggsigPair → Except KeychainError (List Nat) × List AggsigPair
  | [] => (.ok [], [])
  | p :: ps =>
    match kc.sign p with
    | .error e => (.error e, [p])
    | .ok s =>
      match kc.signList_tr ps with
      | (.error e, tr) => (.error e, p :: tr)
      | (.ok ss, tr) => (.ok (s :: ss), p :: tr)

/-- `signature_for_solution` instrumented with the trace of attempted
`sign` calls. -/
def Keychain.signature_for_solution_tr (kc : Keychain) (solution : Solution) :
    Except KeychainError Nat × List AggsigPair :=
  match conditions_for_solution solution with
  | .error e => (.error e, [])
  | .ok conds =>
    match kc.signList_tr (derived_pairs conds) with
    | (.error e, tr) => (.error e, tr)
    | (.ok sigs, tr) => (.ok (BLSSignature.aggregate sigs), tr)

/-- The public key of the first obligation in the list whose key is
absent from the keychain, if any: the obligation whose `sign` call fails
first. -/
def firstAbsent (kc : Keychain) : List AggsigPair → Option Nat
  | [] => none
  | p :: ps =>
    if dictGet kc p.public_key = none then some p.public_key
    else firstAbsent kc ps

/-- The signature an obligation receives when its key is present
(totalised with a default for stating success theorems). -/
def signedValue (kc : Keychain) (p : AggsigPair) : Nat :=
  match dictGet kc p.public_key with
  | none => 0
  | some sk => sk.sign p.message_hash

/-- Key-consistency of a keychain: every entry stores private key
material under exactly the public key derived from it. -/
def KeyConsistent (kc : Keychain) : Prop :=
  ∀ pr ∈ kc, pr.1 = pr.2.public_key

/-! ### Basic facts about the modelled scheme -/

theorem q_pos : 0 < q := by decide

/-- Signing always produces a value inside the group (below `q`). -/
theorem sign_lt_q (k : BLSPrivateKey) (h : Nat) : k.sign h < q :=
  Nat.mod_lt _ q_pos

/-- Aggregating no signatures yields the identity value. -/
theorem aggregate_nil : BLSSignature.aggregate [] = identityAggregate := rfl

/-- Aggregating one group element yields that element. -/
theorem aggregate_singleton (s : Nat) (hs : s < q) :
    BLSSignature.aggregate [s] = s := by
  simp [BLSSignature.aggregate, Nat.mod_eq_of_lt hs]

/-- Aggregation is invariant under permutation of the combined
signatures. -/
theorem aggregate_perm {l₁ l₂ : List Nat} (h : l₁.Perm l₂) :
    BLSSignature.aggregate l₁ = BLSSignature.aggregate l₂ := by
  unfold BLSSignature.aggregate
  rw [h.sum_eq]

/-! ### The stateful embeddings return the incoming keychain -/

theorem sign_st_eq (kc : Keychain) (p : AggsigPair) :
    kc.sign_st p = (kc.sign p, kc) := by
  unfold Keychain.sign_st Keychain.sign
  cases dictGet kc p.public_key <;> rfl

theorem signList_st_eq (kc : Keychain) (ps : List AggsigPair) :
    kc.signList_st ps = (kc.signList ps, kc) := by
  induction ps with
  | nil => rfl
  | cons p ps ih =>
    simp only [Keychain.signList_st, Keychain.signList, sign_st_eq]
    cases kc.sign p with
    | error e => rfl
    | ok s =>
      simp only [ih]
      cases kc.signList ps with
      | error e => rfl
      | ok ss => rfl

theorem signature_for_solution_st_eq (kc : Keychain) (s : Solution) :
    kc.signature_for_solution_st s = (kc.signature_for_solution s, kc) := by
  unfold Keychain.signature_for_solution_st Keychain.signature_for_solution
  cases conditions_for_solution s with
  | error e => rfl
  | ok conds =>
    simp only [Keychain.sign_obligations, signList_st_eq]
    cases kc.signList (derived_pairs conds) with
    | error e => rfl
    | ok sigs => rfl

/-- The trace-instrumented loop computes the same result as the plain
one. -/
theorem signList_tr_fst (kc : Keychain) (ps : List AggsigPair) :
    (kc.signList_tr ps).1 = kc.signList ps := by
  induction ps with
  | nil => rfl
  | cons p ps ih =>
    simp only [Keychain.signList_tr, Keychain.signList]
    cases kc.sign p with
    | error e => rfl
    | ok s =>
      cases htr : kc.signList_tr ps with
      | mk r tr =>
        rw [htr] at ih
        cases r with
        | error e => simp only [← ih]
        | ok ss => simp only [← ih]

theorem signature_for_solution_tr_fst (kc : Keychain) (s : Solution) :
    (kc.signature_for_solution_tr s).1 = kc.signature_for_solution s := by
  unfold Keychain.signature_for_solution_tr Keychain.signature_for_solution
  cases conditions_for_solution s with
  | error e => rfl
  | ok conds =>
    simp only [Keychain.sign_obligations]
    cases htr : kc.signList_tr (derived_pairs conds) with
    | mk r tr =>
      have := signList_tr_fst kc (derived_pairs conds)
      rw [htr] at this
      cases r with
      | error e => simp only [← this]
      | ok sigs => simp only [← this]

/-! ### The signing loop: success and first-failure characterisation -/

theorem firstAbsent_eq_none (kc : Keychain) (ps : List AggsigPair)
    (h : ∀ p ∈ ps, dictGet kc p.public_key ≠ none) :
    firstAbsent kc ps = none := by
  induction ps with
  | nil => rfl
  | cons a ps ih =>
    have ha := h a (List.mem_cons_self a ps)
    simp only [firstAbsent, if_neg ha]
    exact ih fun p hp => h p (List.mem_cons_of_mem a hp)

theorem firstAbsent_of_mem (kc : Keychain) (ps : List AggsigPair)
    (h : ∃ p ∈ ps, dictGet kc p.public_key = none) :
    ∃ k, firstAbsent kc ps = some k ∧ dictGet kc k = none := by
  induction ps with
  | nil => simp at h
  | cons a ps ih =>
    by_cases hg : dictGet kc a.public_key = none
    · exact ⟨a.public_key, by simp only [firstAbsent, if_pos hg], hg⟩
    · rcases h with ⟨p, hp, hpn⟩
      rcases List.mem_cons.mp hp with rfl | hmem
      · exact absurd hpn hg
      · rcases ih ⟨p, hmem, hpn⟩ with ⟨k, hk, hkn⟩
        exact ⟨k, by simp only [firstAbsent, if_neg hg, hk], hkn⟩

/-- When every obligation's key is present, the loop succeeds and
collects exactly the per-obligation signatures, in order. -/
theorem signList_all_present (kc : Keychain) (ps : List AggsigPair)
    (h : ∀ p ∈ ps, dictGet kc p.public_key ≠ none) :
    kc.signList ps = .ok (ps.map (signedValue kc)) := by
  induction ps with
  | nil => rfl
  | cons p ps ih =>
    have hp := h p (List.mem_cons_self p ps)
    obtain ⟨sk, hsk⟩ : ∃ sk, dictGet kc p.public_key = some sk := by
      cases hg : dictGet kc p.public_key with
      | none => exact absurd hg hp
      | some sk => exact ⟨sk, rfl⟩
    have ihs := ih fun p' hp' => h p' (List.mem_cons_of_mem p hp')
    simp [Keychain.signList, Keychain.sign, hsk, ihs, signedValue]

/-- The loop aborts with the unknown-key error of the first obligation
whose key is absent. -/
theorem signList_first_absent (kc : Keychain) (ps : List AggsigPair) (k : Nat)
    (h : firstAbsent kc ps = some k) :
    kc.signList ps = .error (.unknownKey k) := by
  induction ps with
  | nil => simp [firstAbsent] at h
  | cons p ps ih =>
    by_cases hg : dictGet kc p.public_key = none
    · simp only [firstAbsent, if_pos hg, Option.some.injEq] at h
      subst h
      simp [Keychain.signList, Keychain.sign, hg]
    · simp only [firstAbsent, if_neg hg] at h
      obtain ⟨sk, hsk⟩ : ∃ sk, dictGet kc p.public_key = some sk := by
        cases hgg : dictGet kc p.public_key with
        | none => exact absurd hgg hg
        | some sk => exact ⟨sk, rfl⟩
      simp [Keychain.signList, Keychain.sign, hsk, ih h]

/-! ### Dictionary lemmas -/

theorem dictContains_iff_mem_keys (kc : Keychain) (k : Nat) :
    dictContains kc k = true ↔ k ∈ kc.map Prod.fst := by
  induction kc with
  | nil => simp [dictContains]
  | cons p ps ih =>
    by_cases hp : p.1 = k
    · simp [dictContains, hp]
    · simp [dictContains, hp, ih, Ne.symm hp]

theorem dictGet_update_self (kc : Keychain) (k : Nat) (v : BLSPrivateKey)
    (hc : dictContains kc k = true) :
    dictGet (dictUpdate kc k v) k = some v := by
  induction kc with
  | nil => simp [dictContains] at hc
  | cons p ps ih =>
    by_cases hp : p.1 = k
    · simp [dictUpdate, dictGet, hp]
    · simp only [dictContains, if_neg hp] at hc
      simp [dictUpdate, dictGet, hp, ih hc]

theorem dictGet_update_ne (kc : Keychain) (k : Nat) (v : BLSPrivateKey)
    (k' : Nat) (hne : k' ≠ k) :
    dictGet (dictUpdate kc k v) k' = dictGet kc k' := by
  induction kc with
  | nil => rfl
  | cons p ps ih =>
    by_cases hp : p.1 = k
    · simp [dictUpdate, dictGet, hp, Ne.symm hne, ih]
    · by_cases hp' : p.1 = k'
      · simp [dictUpdate, dictGet, hp, hp', hne]
      · simp [dictUpdate, dictGet, hp, hp', ih]

theorem dictGet_append_not_contains (kc : Keychain) (k : Nat)
    (v : BLSPrivateKey) (k' : Nat) (hc : dictContains kc k = false) :
    dictGet (kc ++ [(k, v)]) k' = if k' = k then some v else dictGet kc k' := by
  induction kc with
  | nil =>
    simp only [List.nil_append, dictGet]
    by_cases hk : k' = k
    · subst hk
      simp
    · rw [if_neg (fun h => hk (Eq.symm h)), if_neg hk]
  | cons p ps ih =>
    have hp : p.1 ≠ k := by
      intro hp
      simp [dictContains, hp] at hc
    have hps : dictContains ps k = false := by
      simpa [dictContains, hp] using hc
    by_cases hp' : p.1 = k'
    · have hk : k' ≠ k := fun h => hp (hp'.trans h)
      simp [dictGet, hp', hk]
    · simp [dictGet, hp', ih hps]

/-- The fundamental lookup/insertion law of the embedded Python dict. -/
theorem dictGet_dictInsert (kc : Keychain) (k : Nat) (v : BLSPrivateKey)
    (k' : Nat) :
    dictGet (dictInsert kc k v) k' = if k' = k then some v else dictGet kc k' := by
  by_cases hc : dictContains kc k = true
  · rw [dictInsert, if_pos hc]
    by_cases hk : k' = k
    · subst hk
      rw [dictGet_update_self kc k' v hc, if_pos rfl]
    · rw [dictGet_update_ne kc k v k' hk, if_neg hk]
  · have hcf : dictContains kc k = false := by
      revert hc
      cases dictContains kc k <;> simp
    rw [dictInsert, if_neg hc]
    exact dictGet_append_not_contains kc k v k' hcf

/-- Updating an existing key leaves the dict's key sequence unchanged. -/
theorem keys_dictUpdate (kc : Keychain) (k : Nat) (v : BLSPrivateKey) :
    (dictUpdate kc k v).map Prod.fst = kc.map Prod.fst := by
  induction kc with
  | nil => rfl
  | cons p ps ih =>
    by_cases hp : p.1 = k
    · simp [dictUpdate, hp, ih]
    · simp [dictUpdate, hp, ih]

/-- Insertion preserves distinctness of the dict's keys. -/
theorem keys_nodup_dictInsert (kc : Keychain) (k : Nat) (v : BLSPrivateKey)
    (h : (kc.map Prod.fst).Nodup) :
    ((dictInsert kc k v).map Prod.fst).Nodup := by
  by_cases hc : dictContains kc k = true
  · rw [dictInsert, if_pos hc, keys_dictUpdate]
    exact h
  · have hk : k ∉ kc.map Prod.fst := fun hmem =>
      hc ((dictContains_iff_mem_keys kc k).mpr hmem)
    rw [dictInsert, if_neg hc, List.map_append]
    rw [List.nodup_append]
    refine ⟨h, List.nodup_singleton k, fun a ha hb => hk ?_⟩
    have hak : a = k := by simpa using hb
    exact hak ▸ ha

/-! ### Population: last write wins -/

/-- The last secret exponent in the list whose derived public key is `k`:
the one whose entry survives population under last-write-wins. -/
def lastMatching (k : Nat) : List Nat → Option Nat
  | [] => none
  | e :: es =>
    match lastMatching k es with
    | some e' => some e'
    | none =>
      if (BLSPrivateKey.from_secret_exponent e).public_key = k then some e
      else none

theorem lastMatching_isSome_of_mem (k : Nat) (secrets : List Nat) (e : Nat)
    (he : e ∈ secrets) (hk : (BLSPrivateKey.from_secret_exponent e).public_key = k) :
    ∃ e', lastMatching k secrets = some e' := by
  induction secrets with
  | nil => cases he
  | cons a es ih =>
    cases hes : lastMatching k es with
    | some e' => exact ⟨e', by simp [lastMatching, hes]⟩
    | none =>
      rcases List.mem_cons.mp he with rfl | hmem
      · exact ⟨e, by simp [lastMatching, hes, hk]⟩
      · rcases ih hmem with ⟨e', he'⟩
        rw [hes] at he'
        cases he'

theorem lastMatching_mem (k : Nat) (secrets : List Nat) (e : Nat)
    (h : lastMatching k secrets = some e) :
    e ∈ secrets ∧ (BLSPrivateKey.from_secret_exponent e).public_key = k := by
  induction secrets with
  | nil => cases h
  | cons a es ih =>
    cases hes : lastMatching k es with
    | some e' =>
      simp only [lastMatching, hes, Option.some.injEq] at h
      subst h
      rcases ih hes with ⟨hmem, hk⟩
      exact ⟨List.mem_cons_of_mem a hmem, hk⟩
    | none =>
      simp only [lastMatching, hes] at h
      by_cases ha : (BLSPrivateKey.from_secret_exponent a).public_key = k
      · rw [if_pos ha] at h
        simp only [Option.some.injEq] at h
        subst h
        exact ⟨List.mem_cons_self a es, ha⟩
      · rw [if_neg ha] at h
        cases h

theorem add_secret_exponents_nil (kc : Keychain) :
    kc.add_secret_exponents [] = kc := rfl

theorem add_secret_exponents_cons (kc : Keychain) (e : Nat) (es : List Nat) :
    kc.add_secret_exponents (e :: es)
      = (dictInsert kc (BLSPrivateKey.from_secret_exponent e).public_key
          (BLSPrivateKey.from_secret_exponent e)).add_secret_exponents es := rfl

/-- Lookup after population: the entry under `k` is the private key of
the last secret deriving `k`, and keys never written keep their previous
binding. -/
theorem dictGet_add_secret_exponents (secrets : List Nat) (kc : Keychain) (k : Nat) :
    dictGet (kc.add_secret_exponents secrets) k
      = match lastMatching k secrets with
        | some e => some (BLSPrivateKey.from_secret_exponent e)
        | none => dictGet kc k := by
  induction secrets generalizing kc with
  | nil => rfl
  | cons e es ih =>
    rw [add_secret_exponents_cons, ih]
    cases hes : lastMatching k es with
    | some e' => simp [lastMatching, hes]
    | none =>
      simp only [lastMatching, hes]
      rw [dictGet_dictInsert]
      by_cases hk : (BLSPrivateKey.from_secret_exponent e).public_key = k
      · rw [if_pos hk, if_pos (Eq.symm hk)]
      · rw [if_neg hk, if_neg (fun h => hk (Eq.symm h))]

/-- Population preserves distinctness of the stored public keys. -/
theorem keys_nodup_add_secret_exponents (secrets : List Nat) (kc : Keychain)
    (h : (kc.map Prod.fst).Nodup) :
    ((kc.add_secret_exponents secrets).map Prod.fst).Nodup := by
  induction secrets generalizing kc with
  | nil => exact h
  | cons e es ih =>
    rw [add_secret_exponents_cons]
    exact ih _ (keys_nodup_dictInsert kc _ _ h)

/-! ### Key-consistency lemmas -/

theorem keyConsistent_dictUpdate (kc : Keychain) (v : BLSPrivateKey)
    (h : KeyConsistent kc) : KeyConsistent (dictUpdate kc v.public_key v) := by
  induction kc with
  | nil => exact fun pr hpr => absurd hpr (List.not_mem_nil pr)
  | cons p ps ih =>
    intro pr hpr
    rcases List.mem_cons.mp hpr with hpr | hmem
    · by_cases hp : p.1 = v.public_key
      · rw [if_pos hp] at hpr
        subst hpr
        rfl
      · rw [if_neg hp] at hpr
        rw [hpr]
        exact h p (List.mem_cons_self p ps)
    · exact ih (fun pr' hpr' => h pr' (List.mem_cons_of_mem p hpr')) pr hmem

theorem keyConsistent_dictInsert (kc : Keychain) (v : BLSPrivateKey)
    (h : KeyConsistent kc) : KeyConsistent (dictInsert kc v.public_key v) := by
  by_cases hc : dictContains kc v.public_key = true
  · rw [dictInsert, if_pos hc]
    exact keyConsistent_dictUpdate kc v h
  · rw [dictInsert, if_neg hc]
    intro pr hpr
    rcases List.mem_append.mp hpr with hmem | hmem
    · exact h pr hmem
    · have hpr' : pr = (v.public_key, v) := by simpa using hmem
      subst hpr'
      rfl

theorem keyConsistent_add_secret_exponents (secrets : List Nat) (kc : Keychain)
    (h : KeyConsistent kc) : KeyConsistent (kc.add_secret_exponents secrets) := by
  induction secrets generalizing kc with
  | nil => exact h
  | cons e es ih =>
    rw [add_secret_exponents_cons]
    exact ih _ (keyConsistent_dictInsert kc _ h)

/-! ### The claims -/

/-- Claim C1: for every solution whose derived obligation list contains
at least one obligation whose public key is absent from the keychain, the
whole signing operation fails with the unknown-key error of the first
failing `sign` call, no aggregate signature is returned, and the
keychain's contents are the same after the failed call as before it. -/
theorem unknown_key_aborts_whole_signing (kc : Keychain) (conds : List Condition)
    (h : ∃ p ∈ derived_pairs conds, dictGet kc p.public_key = none) :
    ∃ k, dictGet kc k = none
      ∧ firstAbsent kc (derived_pairs conds) = some k
      ∧ kc.signature_for_solution (.wellFormed conds) = .error (.unknownKey k)
      ∧ (kc.signature_for_solution_st (.wellFormed conds)).2 = kc := by
  obtain ⟨k, hfa, hkn⟩ := firstAbsent_of_mem kc _ h
  refine ⟨k, hkn, hfa, ?_, by rw [signature_for_solution_st_eq]⟩
  have hsl : kc.signList (derived_pairs conds) = .error (.unknownKey k) :=
    signList_first_absent kc _ k hfa
  simp [Keychain.signature_for_solution, conditions_for_solution,
    Keychain.sign_obligations, hsl]

theorem unknown_key_aborts_whole_signing_witness :
    ∃ k, dictGet ([] : Keychain) k = none
      ∧ firstAbsent [] (derived_pairs [⟨AGG_SIG, 5, 7⟩]) = some k
      ∧ Keychain.signature_for_solution [] (.wellFormed [⟨AGG_SIG, 5, 7⟩])
          = .error (.unknownKey k)
      ∧ (Keychain.signature_for_solution_st [] (.wellFormed [⟨AGG_SIG, 5, 7⟩])).2 = [] :=
  unknown_key_aborts_whole_signing [] [⟨AGG_SIG, 5, 7⟩]
    ⟨⟨5, 1401285872⟩, by decide, by decide⟩

/-- Claim C2: for every keychain and pair, `sign` with an absent public
key fails with the unknown-key error naming the missing key and leaves
the keychain unchanged; with a present key it returns the deterministic
signature of the message hash under the stored private key. -/
theorem sign_contract (kc : Keychain) (p : AggsigPair) :
    (kc.sign_st p).2 = kc
    ∧ (dictGet kc p.public_key = none →
        kc.sign p = .error (.unknownKey p.public_key))
    ∧ (∀ sk, dictGet kc p.public_key = some sk →
        kc.sign p = .ok (sk.sign p.message_hash)) := by
  refine ⟨by rw [sign_st_eq], ?_, ?_⟩
  · intro hn
    simp [Keychain.sign, hn]
  · intro sk hs
    simp [Keychain.sign, hs]

theorem sign_contract_witness :
    Keychain.sign [(3, ⟨3⟩)] ⟨3, 5⟩ = .ok (BLSPrivateKey.sign ⟨3⟩ 5) :=
  (sign_contract [(3, ⟨3⟩)] ⟨3, 5⟩).2.2 ⟨3⟩ (by decide)

/-- Claim C3: when every derived obligation's public key is present, the
engine signs the obligations one by one in the deriver's order, passes
the collected signatures in that same order to the aggregation function,
and returns exactly its result. -/
theorem all_present_signs_in_order_and_aggregates (kc : Keychain)
    (conds : List Condition)
    (h : ∀ p ∈ derived_pairs conds, dictGet kc p.public_key ≠ none) :
    kc.signList (derived_pairs conds)
        = .ok ((derived_pairs conds).map (signedValue kc))
    ∧ kc.signature_for_solution (.wellFormed conds)
        = .ok (BLSSignature.aggregate ((derived_pairs conds).map (signedValue kc))) := by
  have hl := signList_all_present kc _ h
  exact ⟨hl, by simp [Keychain.signature_for_solution, conditions_for_solution,
    Keychain.sign_obligations, hl]⟩

theorem all_present_signs_in_order_and_aggregates_witness :
    Keychain.signList [(3, ⟨3⟩)] (derived_pairs [⟨AGG_SIG, 3, 7⟩])
        = .ok ((derived_pairs [⟨AGG_SIG, 3, 7⟩]).map (signedValue [(3, ⟨3⟩)]))
    ∧ Keychain.signature_for_solution [(3, ⟨3⟩)] (.wellFormed [⟨AGG_SIG, 3, 7⟩])
        = .ok (BLSSignature.aggregate
            ((derived_pairs [⟨AGG_SIG, 3, 7⟩]).map (signedValue [(3, ⟨3⟩)]))) :=
  all_present_signs_in_order_and_aggregates [(3, ⟨3⟩)] [⟨AGG_SIG, 3, 7⟩] (by decide)

/-- Claim C4: populating a keychain maps each secret's derived public key
to its private key material, re-adding a colliding secret overwrites the
existing entry (last write wins), and the populated keychain holds
exactly one entry per distinct derived public key. -/
theorem populate_unique_keys_last_write_wins (secrets : List Nat) :
    ((Keychain.add_secret_exponents [] secrets).map Prod.fst).Nodup
    ∧ (∀ k, dictGet (Keychain.add_secret_exponents [] secrets) k
        = (lastMatching k secrets).map BLSPrivateKey.from_secret_exponent)
    ∧ (∀ e ∈ secrets,
        dictGet (Keychain.add_secret_exponents [] secrets)
          (BLSPrivateKey.from_secret_exponent e).public_key ≠ none) := by
  refine ⟨keys_nodup_add_secret_exponents secrets [] (by simp), ?_, ?_⟩
  · intro k
    rw [dictGet_add_secret_exponents]
    cases lastMatching k secrets <;> rfl
  · intro e he
    rcases lastMatching_isSome_of_mem _ secrets e he rfl with ⟨e', he'⟩
    rw [dictGet_add_secret_exponents, he']
    simp

theorem populate_unique_keys_last_write_wins_witness :
    dictGet (Keychain.add_secret_exponents [] [1, 1 + q]) 1
      = some (BLSPrivateKey.from_secret_exponent (1 + q)) := by
  rw [(populate_unique_keys_last_write_wins [1, 1 + q]).2.1 1]
  decide

/-- Claim C5: for every solution whose derived obligation list is empty,
`signature_for_solution` succeeds and returns the scheme's identity
aggregate signature. -/
theorem empty_obligations_identity_aggregate (kc : Keychain)
    (conds : List Condition) (h : derived_pairs conds = []) :
    kc.signature_for_solution (.wellFormed conds) = .ok identityAggregate := by
  simp [Keychain.signature_for_solution, conditions_for_solution, h,
    Keychain.sign_obligations, Keychain.signList, aggregate_nil]

theorem empty_obligations_identity_aggregate_witness :
    Keychain.signature_for_solution [] (.wellFormed [⟨1, 0, 0⟩]) = .ok identityAggregate :=
  empty_obligations_identity_aggregate [] [⟨1, 0, 0⟩] (by decide)

/-- Claim C6: for a fixed obligation list all of whose keys are in the
keychain, signing any permutation of the list yields an equal aggregate
signature: aggregation is invariant under permutation of the combined
signatures. -/
theorem sign_obligations_perm_invariant (kc : Keychain)
    (ps₁ ps₂ : List AggsigPair) (hperm : ps₁.Perm ps₂)
    (h : ∀ p ∈ ps₁, dictGet kc p.public_key ≠ none) :
    kc.sign_obligations ps₁ = kc.sign_obligations ps₂ := by
  have h2 : ∀ p ∈ ps₂, dictGet kc p.public_key ≠ none := fun p hp =>
    h p (hperm.mem_iff.mpr hp)
  rw [Keychain.sign_obligations, Keychain.sign_obligations,
    signList_all_present kc ps₁ h, signList_all_present kc ps₂ h2]
  exact congrArg Except.ok (aggregate_perm (hperm.map (signedValue kc)))

theorem sign_obligations_perm_invariant_witness :
    Keychain.sign_obligations [(3, ⟨3⟩), (4, ⟨4⟩)] [⟨3, 5⟩, ⟨4, 6⟩]
      = Keychain.sign_obligations [(3, ⟨3⟩), (4, ⟨4⟩)] [⟨4, 6⟩, ⟨3, 5⟩] :=
  sign_obligations_perm_invariant [(3, ⟨3⟩), (4, ⟨4⟩)] [⟨3, 5⟩, ⟨4, 6⟩]
    [⟨4, 6⟩, ⟨3, 5⟩] (List.Perm.swap (⟨4, 6⟩ : AggsigPair) ⟨3, 5⟩ []) (by decide)

/-- Claim C7: for a solution deriving exactly one obligation whose key is
present, `signature_for_solution` returns an aggregate equal to the
single underlying signature: the aggregate of one element is that
element. -/
theorem singleton_aggregate_is_single_signature (kc : Keychain)
    (conds : List Condition) (p : AggsigPair) (sk : BLSPrivateKey)
    (hp : derived_pairs conds = [p])
    (hget : dictGet kc p.public_key = some sk) :
    kc.sign p = .ok (sk.sign p.message_hash)
    ∧ kc.signature_for_solution (.wellFormed conds) = .ok (sk.sign p.message_hash) := by
  have hsign : kc.sign p = .ok (sk.sign p.message_hash) := by
    simp [Keychain.sign, hget]
  refine ⟨hsign, ?_⟩
  have hsl : kc.signList [p] = .ok [sk.sign p.message_hash] := by
    simp [Keychain.signList, hsign]
  simp [Keychain.signature_for_solution, conditions_for_solution, hp,
    Keychain.sign_obligations, hsl,
    aggregate_singleton _ (sign_lt_q sk p.message_hash)]

theorem singleton_aggregate_is_single_signature_witness :
    Keychain.sign [(3, ⟨3⟩)] ⟨3, 1401285872⟩
        = .ok (BLSPrivateKey.sign ⟨3⟩ 1401285872)
    ∧ Keychain.signature_for_solution [(3, ⟨3⟩)] (.wellFormed [⟨AGG_SIG, 3, 7⟩])
        = .ok (BLSPrivateKey.sign ⟨3⟩ 1401285872) :=
  singleton_aggregate_is_single_signature [(3, ⟨3⟩)] [⟨AGG_SIG, 3, 7⟩]
    ⟨3, 1401285872⟩ ⟨3⟩ (by decide) (by decide)

/-- Claim C8: when the solution's output cannot be decoded into a
well-formed condition list, the pipeline fails with the parse error,
propagated before any obligation is derived or any `sign` call is
attempted (the attempted-sign trace is empty), and the keychain is
unchanged. -/
theorem parse_error_propagates_before_signing (kc : Keychain) (s : Solution)
    (h : conditions_for_solution s = .error .conditionParse) :
    kc.signature_for_solution s = .error .conditionParse
    ∧ kc.signature_for_solution_tr s = (.error .conditionParse, [])
    ∧ (kc.signature_for_solution_st s).2 = kc := by
  refine ⟨?_, ?_, by rw [signature_for_solution_st_eq]⟩
  · simp [Keychain.signature_for_solution, h]
  · simp [Keychain.signature_for_solution_tr, h]

theorem parse_error_propagates_before_signing_witness :
    Keychain.signature_for_solution [] .malformed = .error .conditionParse
    ∧ Keychain.signature_for_solution_tr [] .malformed = (.error .conditionParse, [])
    ∧ (Keychain.signature_for_solution_st [] .malformed).2 = [] :=
  parse_error_propagates_before_signing [] .malformed rfl

/-- Claim C9: the read operations `sign` and `signature_for_solution`
never modify the keychain: its entries are identical before and after
the call, whether it succeeds or fails. -/
theorem read_ops_preserve_keychain (kc : Keychain) (p : AggsigPair) (s : Solution) :
    (kc.sign_st p).2 = kc ∧ (kc.signature_for_solution_st s).2 = kc :=
  ⟨by rw [sign_st_eq], by rw [signature_for_solution_st_eq]⟩

/-- Claim C10: every keychain built by a sequence of
`add_secret_exponents` calls from the empty keychain is key-consistent
(each entry's key is the public key derived from its stored private
key), and the invariant is preserved by every keychain operation. -/
theorem keychain_key_consistent_invariant (batches : List (List Nat))
    (kc : Keychain) (secrets : List Nat) (p : AggsigPair) (s : Solution) :
    KeyConsistent (batches.foldl Keychain.add_secret_exponents [])
    ∧ (KeyConsistent kc →
        KeyConsistent (kc.add_secret_exponents secrets)
        ∧ KeyConsistent (kc.sign_st p).2
        ∧ KeyConsistent (kc.signature_for_solution_st s).2) := by
  constructor
  · have hall : ∀ (bs : List (List Nat)) (kc0 : Keychain), KeyConsistent kc0 →
        KeyConsistent (bs.foldl Keychain.add_secret_exponents kc0) := by
      intro bs
      induction bs with
      | nil => exact fun kc0 h => h
      | cons b bs ih =>
        exact fun kc0 h => ih _ (keyConsistent_add_secret_exponents b kc0 h)
    exact hall batches [] (fun pr hpr => absurd hpr (List.not_mem_nil pr))
  · intro h
    exact ⟨keyConsistent_add_secret_exponents secrets kc h,
      by rw [sign_st_eq]; exact h,
      by rw [signature_for_solution_st_eq]; exact h⟩

theorem keychain_key_consistent_invariant_witness :
    KeyConsistent (Keychain.add_secret_exponents [(3, ⟨3⟩)] [5]) :=
  ((keychain_key_consistent_invariant [] [(3, ⟨3⟩)] [5] ⟨3, 5⟩ .malformed).2
    (by
      intro pr hpr
      have hpr' : pr = (3, ⟨3⟩) := by simpa using hpr
      rw [hpr']
      rfl)).1

end ChiaWallet
